import Mathlib

/-!
# Verification of the `bugyi.lib` Result / error-chain / report-rendering core

This file gives a shallow embedding, in Lean 4, of the core of the
`bbugyi200/python-lib` repository as documented in its specification:

* `src/bugyi/lib/result.py` — the `Ok`/`Err` result type, its boolean-coercion
  guard, and the memoizing `_LazyResult` wrapper;
* `src/bugyi/lib/errors.py` — `BugyiError`, `chain_errors`, `BugyiError.__iter__`,
  `BugyiError.report`, `_ErrorReport._add_chunk` and `_ErrorReport._close_borders`;
* `src/bugyi/lib/io.py` — `ewrap` / `efill`.

Python text is modelled as `List Char` (`PyStr`); Python integers that can go
negative are modelled as `Int` with Euclidean division (`Int.ediv`/`Int.emod`
agree with Python's floor `divmod` for positive divisors), and Python's clamping
`"c" * n = ""` for `n ≤ 0` is modelled with `Int.toNat`.  Statefulness
(`_LazyResult`'s memo slot, `_ErrorReport`'s mutable line list) is modelled by
explicit state passing.  Code paths that can raise `IndexError`
(`_close_borders`) return `Option`.
-/

set_option maxRecDepth 10000

abbrev PyStr := List Char

/-- `String` literal to `PyStr` conversion helper. -/
def ofStr (s : String) : PyStr := s.data

/-- `" " * n` for a natural count. -/
def spaces (n : Nat) : PyStr := List.replicate n ' '

/-- Python string repetition `s * n` (empty for `n ≤ 0`). -/
def pyRepeat (s : PyStr) (n : Int) : PyStr := (List.replicate n.toNat s).flatten

/-! ## The Result type (`result.py`) -/

/-- The two-variant result type: `Ok(value)` / `Err(error)` (`result.py`). -/
inductive PyResult (T E : Type) where
  | ok (value : T) : PyResult T E
  | err (error : E) : PyResult T E
  deriving DecidableEq, Repr

namespace PyResult

/-- `Ok.err` returns `None`; `Err.err` returns the contained error. -/
def errOf : PyResult T E → Option E
  | .ok _ => none
  | .err e => some e

/-- `Ok.unwrap` returns the value; `Err.unwrap` raises the contained error
(modelled with `Except`). -/
def unwrap : PyResult T E → Except E T
  | .ok v => .ok v
  | .err e => .error e

/-- `unwrap_or`: `Ok.unwrap_or` returns `self.ok()`, `Err.unwrap_or` returns
the default. -/
def unwrap_or : PyResult T E → T → T
  | .ok v, _ => v
  | .err _, d => d

/-- `unwrap_or_else`: `Ok` returns the value, `Err` applies `op` to the error. -/
def unwrap_or_else : PyResult T E → (E → T) → T
  | .ok v, _ => v
  | .err e, op => op e

/-- Is this the `Err` variant? -/
def isErr : PyResult T E → Bool
  | .ok _ => false
  | .err _ => true

/-- `cname(self)` for a result value: the class name of the active variant. -/
def cnameOf : PyResult T E → PyStr
  | .ok _ => ofStr "Ok"
  | .err _ => ofStr "Err"

end PyResult

/-- The fixed part of the `_ResultMixin.__bool__` diagnostic message. -/
def boolErrCore : PyStr :=
  ofStr " object cannot be evaluated as a boolean. This is probably a bug in your code. Make sure you are either explicitly checking for Err results or using one of the `Result.unwrap*()` methods:  "

/-- `_ResultMixin.__bool__` (`result.py` lines 20–26): unconditionally raises
`ValueError` with a diagnostic built from `cname(self)` and `repr(self)`.
Raising is modelled with `Except`; `selfRepr` stands for `{self!r}`. -/
def resultMixinBool (cname selfRepr : PyStr) : Except PyStr Bool :=
  .error (cname ++ boolErrCore ++ selfRepr)

/-- Boolean coercion of an `Ok`/`Err` value. -/
def PyResult.pyBool (r : PyResult T E) (selfRepr : PyStr) : Except PyStr Bool :=
  resultMixinBool r.cnameOf selfRepr

/-! ## `_LazyResult` (`result.py` lines 99–124)

The instance state is the memo slot `self._result`; we additionally thread a
ghost counter of how many times the producer `self._func` has been invoked. -/

/-- The mutable state of a `_LazyResult` instance plus a ghost invocation
counter for the wrapped producer. -/
structure LazyState (T E : Type) where
  memo : Option (PyResult T E)
  invocations : Nat
  deriving DecidableEq, Repr

/-- `_LazyResult.result`: run the producer on first access, cache, and return
the cached result thereafter. -/
def lazyResult (f : Unit → PyResult T E) (s : LazyState T E) :
    PyResult T E × LazyState T E :=
  match s.memo with
  | some r => (r, s)
  | none =>
    let r := f ()
    (r, ⟨some r, s.invocations + 1⟩)

/-- `_LazyResult.unwrap`. -/
def lazyUnwrap (f : Unit → PyResult T E) (s : LazyState T E) :
    Except E T × LazyState T E :=
  let (r, s') := lazyResult f s
  (r.unwrap, s')

/-- `_LazyResult.unwrap_or`. -/
def lazyUnwrapOr (f : Unit → PyResult T E) (d : T) (s : LazyState T E) :
    T × LazyState T E :=
  let (r, s') := lazyResult f s
  (r.unwrap_or d, s')

/-- `_LazyResult.unwrap_or_else`. -/
def lazyUnwrapOrElse (f : Unit → PyResult T E) (op : E → T) (s : LazyState T E) :
    T × LazyState T E :=
  let (r, s') := lazyResult f s
  (r.unwrap_or_else op, s')

/-- `_LazyResult.err`. -/
def lazyErr (f : Unit → PyResult T E) (s : LazyState T E) :
    Option E × LazyState T E :=
  let (r, s') := lazyResult f s
  (r.errOf, s')

/-- One accessor call on a `_LazyResult` instance. -/
inductive LazyCall (T E : Type) where
  | unwrapC : LazyCall T E
  | unwrapOrC (d : T) : LazyCall T E
  | unwrapOrElseC (op : E → T) : LazyCall T E
  | errC : LazyCall T E

/-- The state effect of one accessor call. -/
def runLazyCall (f : Unit → PyResult T E) (c : LazyCall T E) (s : LazyState T E) :
    LazyState T E :=
  match c with
  | .unwrapC => (lazyUnwrap f s).2
  | .unwrapOrC d => (lazyUnwrapOr f d s).2
  | .unwrapOrElseC op => (lazyUnwrapOrElse f op s).2
  | .errC => (lazyErr f s).2

/-- Run a sequence of accessor calls on a `_LazyResult` instance. -/
def runLazyCalls (f : Unit → PyResult T E) : List (LazyCall T E) → LazyState T E → LazyState T E
  | [], s => s
  | c :: cs, s => runLazyCalls f cs (runLazyCall f c s)

/-- The state of a freshly constructed `_LazyResult` (`self._result = None`). -/
def lazyInit (T E : Type) : LazyState T E := ⟨none, 0⟩

/-! ### Theorems: C3 (lazy memoization), C8 (boolean coercion), C9 (unwrap_or) -/

theorem runLazyCall_cached {T E : Type} (f : Unit → PyResult T E)
    (c : LazyCall T E) (s : LazyState T E) (r : PyResult T E)
    (h : s.memo = some r) : runLazyCall f c s = s := by
  cases c <;>
    simp [runLazyCall, lazyUnwrap, lazyUnwrapOr, lazyUnwrapOrElse, lazyErr,
      lazyResult, h]

theorem runLazyCalls_cached {T E : Type} (f : Unit → PyResult T E)
    (cs : List (LazyCall T E)) (s : LazyState T E) (r : PyResult T E)
    (h : s.memo = some r) : runLazyCalls f cs s = s := by
  induction cs with
  | nil => rfl
  | cons c cs ih => rw [runLazyCalls, runLazyCall_cached f c s r h, ih]

theorem runLazyCall_fresh {T E : Type} (f : Unit → PyResult T E)
    (c : LazyCall T E) (k : Nat) :
    runLazyCall f c ⟨none, k⟩ = ⟨some (f ()), k + 1⟩ := by
  cases c <;>
    simp [runLazyCall, lazyUnwrap, lazyUnwrapOr, lazyUnwrapOrElse, lazyErr,
      lazyResult]

/-- **C3.** The wrapped producer of a `_LazyResult` executes at most once: an
empty accessor-call sequence never runs it, any non-empty sequence of
`unwrap`/`unwrap_or`/`unwrap_or_else`/`err` calls runs it exactly once and
leaves the produced result cached in the memo slot, and any accessor invoked
on an instance whose memo slot is already filled returns the cached result and
leaves the state (including the invocation count) untouched. -/
theorem C3_lazy_producer_at_most_once {T E : Type} (f : Unit → PyResult T E)
    (calls : List (LazyCall T E)) :
    (calls = [] → runLazyCalls f calls (lazyInit T E) = lazyInit T E) ∧
    (calls ≠ [] →
      runLazyCalls f calls (lazyInit T E) = ⟨some (f ()), 1⟩) ∧
    (∀ (s : LazyState T E) (r : PyResult T E), s.memo = some r →
      lazyResult f s = (r, s)) := by
  refine ⟨fun h => by subst h; rfl, fun h => ?_, fun s r h => by simp [lazyResult, h]⟩
  cases calls with
  | nil => exact absurd rfl h
  | cons c cs =>
    rw [runLazyCalls, lazyInit, runLazyCall_fresh]
    exact runLazyCalls_cached f cs _ (f ()) rfl

theorem C3_lazy_producer_at_most_once_witness :
    (([LazyCall.unwrapC, LazyCall.errC, LazyCall.unwrapOrC 7] :
        List (LazyCall Nat Nat)) ≠ []) ∧
    runLazyCalls (fun _ => PyResult.ok 3)
        [LazyCall.unwrapC, LazyCall.errC, LazyCall.unwrapOrC 7]
        (lazyInit Nat Nat) = ⟨some (PyResult.ok 3), 1⟩ :=
  ⟨by simp,
    (C3_lazy_producer_at_most_once (fun _ => PyResult.ok 3)
      [LazyCall.unwrapC, LazyCall.errC, LazyCall.unwrapOrC 7]).2.1 (by simp)⟩

/-- `_LazyResult` inherits `_ResultMixin.__bool__` unchanged; `cname(self)` is
then `"_LazyResult"`. -/
def lazyBool (selfRepr : PyStr) : Except PyStr Bool :=
  resultMixinBool (ofStr "_LazyResult") selfRepr

/-- The diagnostic phrase of the `__bool__` usage error. -/
def boolDiagnosticPhrase : PyStr := ofStr "cannot be evaluated as a boolean"

theorem boolErrCore_decomp :
    boolErrCore =
      ofStr " object " ++ boolDiagnosticPhrase ++
        ofStr ". This is probably a bug in your code. Make sure you are either explicitly checking for Err results or using one of the `Result.unwrap*()` methods:  " := by
  decide

theorem resultMixinBool_diag (cname selfRepr : PyStr) :
    resultMixinBool cname selfRepr = .error (cname ++ boolErrCore ++ selfRepr) ∧
    boolDiagnosticPhrase <:+: cname ++ boolErrCore ++ selfRepr ∧
    cname <+: cname ++ boolErrCore ++ selfRepr := by
  refine ⟨rfl, ⟨cname ++ ofStr " object ",
    ofStr ". This is probably a bug in your code. Make sure you are either explicitly checking for Err results or using one of the `Result.unwrap*()` methods:  " ++ selfRepr, ?_⟩,
    ⟨boolErrCore ++ selfRepr, by simp⟩⟩
  rw [boolErrCore_decomp]
  simp

/-- **C8.** Boolean coercion of any Result value — `Ok`, `Err`, or a
`_LazyResult` — never yields a truth value: it raises (`Except.error`) with a
diagnostic that names the value's class and states the usage bug ("… cannot be
evaluated as a boolean …"). -/
theorem C8_result_bool_raises {T E : Type} (r : PyResult T E) (selfRepr : PyStr) :
    (r.pyBool selfRepr).isOk = false ∧
    (∃ msg, r.pyBool selfRepr = .error msg ∧
      boolDiagnosticPhrase <:+: msg ∧ r.cnameOf <+: msg) ∧
    (lazyBool selfRepr).isOk = false ∧
    (∃ msg, lazyBool selfRepr = .error msg ∧
      boolDiagnosticPhrase <:+: msg ∧ ofStr "_LazyResult" <+: msg) := by
  obtain ⟨h1, h2, h3⟩ := resultMixinBool_diag r.cnameOf selfRepr
  obtain ⟨g1, g2, g3⟩ := resultMixinBool_diag (ofStr "_LazyResult") selfRepr
  refine ⟨by simp [PyResult.pyBool, resultMixinBool, Except.isOk, Except.toBool],
    ⟨_, h1, h2, h3⟩,
    by simp [lazyBool, resultMixinBool, Except.isOk, Except.toBool],
    ⟨_, g1, g2, g3⟩⟩

/-- **C9 counterexample.** `Ok(5).unwrap_or(5)` returns `5`, which equals the
default even though the result is not an `Err`: "returns the default only in
the `Err` case" fails as soon as the wrapped value equals the default. -/
theorem C9_counterexample :
    (PyResult.ok 5 : PyResult Nat Nat).unwrap_or 5 = 5 ∧
    (PyResult.ok 5 : PyResult Nat Nat).isErr = false ∧
    ¬ (∀ (r : PyResult Nat Nat) (d : Nat),
        r.unwrap_or d = d → r.isErr = true) := by
  refine ⟨rfl, rfl, fun h => ?_⟩
  have := h (PyResult.ok 5) 5 rfl
  simp [PyResult.isErr] at this

/-- **C9 (amended).** `Ok(value).unwrap_or(d)` returns the wrapped value and
`Err(error).unwrap_or(d)` returns `d`; hence the call returns `d` whenever the
result is an `Err`, though in the `Ok` case the returned value may coincide
with `d` when the wrapped value equals it. -/
theorem C9_unwrap_or_amended {T E : Type} (v : T) (e : E) (d : T) :
    (PyResult.ok v : PyResult T E).unwrap_or d = v ∧
    (PyResult.err e : PyResult T E).unwrap_or d = d := ⟨rfl, rfl⟩

/-! ## Error chains (`errors.py`) -/

/-- An exception value as it appears in an error chain.  `bugyi` is a
`BugyiError` carrying `cname(self)`, its message and its `Inspector` origin
metadata (module name, function name, line number); `foreign` is any other
exception, carrying its class name and the traceback/repr text that
`_tb_or_repr` would render.  `cause` models `__cause__`. -/
inductive Exc : Type where
  | bugyi (cls emsg module_name function_name : String) (lineNo : Nat)
      (cause : Option Exc) : Exc
  | foreign (cls text : String) (cause : Option Exc) : Exc

/-- `e.__cause__`. -/
def Exc.cause : Exc → Option Exc
  | .bugyi _ _ _ _ _ c => c
  | .foreign _ _ c => c

/-- `cname(e)`. -/
def Exc.clsName : Exc → String
  | .bugyi cls _ _ _ _ _ => cls
  | .foreign cls _ _ => cls

/-- `chain_errors(e1, e2)` (`errors.py` lines 201–219): walk `e1`'s cause chain
to its deepest member and set that member's `__cause__` to `e2`; the updated
`e1` is returned. -/
def chain_errors : Exc → Option Exc → Exc
  | .bugyi a b c d n none, e2 => .bugyi a b c d n e2
  | .bugyi a b c d n (some k), e2 => .bugyi a b c d n (some (chain_errors k e2))
  | .foreign cl t none, e2 => .foreign cl t e2
  | .foreign cl t (some k), e2 => .foreign cl t (some (chain_errors k e2))

/-- `BugyiError.__iter__` (`errors.py` lines 59–65): yield `self`, then follow
`__cause__` links until absent. -/
def Exc.iter : Exc → List Exc
  | .bugyi a b c d n none => [.bugyi a b c d n none]
  | .bugyi a b c d n (some k) => .bugyi a b c d n (some k) :: k.iter
  | .foreign cl t none => [.foreign cl t none]
  | .foreign cl t (some k) => .foreign cl t (some k) :: k.iter

/-- The observable payload of one chain member (everything except the
`__cause__` link, which `chain_errors` may rewrite at the deepest member). -/
structure ExcInfo where
  isBugyi : Bool
  cls : String
  emsg : String
  module_name : String
  function_name : String
  text : String
  lineNo : Nat
  deriving DecidableEq, Repr

/-- Payload of a chain member. -/
def Exc.info : Exc → ExcInfo
  | .bugyi a b c d n _ => ⟨true, a, b, c, d, "", n⟩
  | .foreign cl t _ => ⟨false, cl, "", "", "", t, 0⟩

/-- `BugyiError.__init__(emsg, cause, up)`: runs `chain_errors(self, cause)` on
a fresh, causeless `self` and records the `Inspector` origin. -/
def mkBugyiError (cls emsg module_name function_name : String) (lineNo : Nat)
    (cause : Option Exc) : Exc :=
  chain_errors (.bugyi cls emsg module_name function_name lineNo none) cause

/-! ## Text splitting and wrapping -/

/-- Python `s.split("\n")`. -/
def splitOnNl : PyStr → List PyStr
  | [] => [[]]
  | c :: rest =>
    if c = '\n' then [] :: splitOnNl rest
    else
      match splitOnNl rest with
      | [] => [[c]]
      | l :: ls => (c :: l) :: ls

/-- Python `s.split(" ")`. -/
def splitOnSpace : PyStr → List PyStr
  | [] => [[]]
  | c :: rest =>
    if c = ' ' then [] :: splitOnSpace rest
    else
      match splitOnSpace rest with
      | [] => [[c]]
      | l :: ls => (c :: l) :: ls

/-- Break a string into pieces of at most `n` characters (`n ≥ 1` is enforced
by the caller; the fuel equals the string length, which suffices). -/
def chunksAux : Nat → Nat → PyStr → List PyStr
  | 0, _, s => [s]
  | fuel + 1, n, s =>
    if s.length ≤ n then [s] else s.take n :: chunksAux fuel n (s.drop n)

/-- All maximal pieces of `s` of length at most `max 1 n`. -/
def chunksOf (n : Nat) (s : PyStr) : List PyStr :=
  chunksAux s.length (max 1 n) s

/-- Greedily pack words into lines: extend the current line with ` word`
while the result stays within `width`, otherwise emit it and start a fresh
line with the continuation indent. -/
def fillGreedy (width : Nat) (indent : PyStr) (cur : PyStr) :
    List PyStr → List PyStr
  | [] => [cur]
  | w :: ws =>
    if cur.length + 1 + w.length ≤ width then
      fillGreedy width indent (cur ++ ' ' :: w) ws
    else
      cur :: fillGreedy width indent (indent ++ w) ws

/-- Modelled from the spec: the line-wrapping collaborator
`wrap(text, width, subsequent_indent, drop_whitespace)` consumed from the
standard library (spec section 6), described in section 4.3 as a greedy
word-wrap in which each logical line's leading whitespace becomes the
continuation indent when the line must be split.  Words are the maximal
space-free runs of the text; a word longer than the room left after the indent
is broken into room-sized pieces; all-whitespace text produces no lines. -/
def wrap (msg : PyStr) (width : Nat) (indent : PyStr) : List PyStr :=
  match (splitOnSpace msg).filter (· ≠ []) with
  | [] => []
  | w :: ws =>
    match (w :: ws).flatMap (chunksOf (width - indent.length)) with
    | [] => []
    | p :: ps => fillGreedy width indent (indent ++ p) ps

/-- `ewrap` (`io.py` lines 45–64): split on newlines, yield `""` for empty
lines, prepend the `indent`, and wrap each line with its own leading
whitespace as the continuation indent. -/
def ewrap (multilineMsg : PyStr) (width : Nat) (indent : Nat) : List PyStr :=
  (splitOnNl multilineMsg).flatMap fun msg =>
    if msg = [] then [[]]
    else
      let msg := spaces indent ++ msg
      let i := (msg.takeWhile (· = ' ')).length
      wrap msg width (spaces i)

/-- `efill` (`io.py` lines 67–69): `"\n".join(ewrap(...))`. -/
def efill (multilineMsg : PyStr) (width : Nat) (indent : Nat) : PyStr :=
  List.intercalate ['\n'] (ewrap multilineMsg width indent)

/-! ## Report arithmetic (`BugyiError.report`, `errors.py` lines 67–122) -/

/-- `MIDDLE_MSG = "was the direct cause of"`. -/
def MIDDLE_MSG : PyStr := ofStr "was the direct cause of"

/-- The title-centering padding: `nleft_spaces, rem = divmod(width - len(TITLE), 2)`,
with the extra column going to the right when the difference is odd
(`errors.py` lines 81–85). -/
def titlePadding (title : PyStr) (width : Nat) : Int × Int :=
  let d : Int := (width : Int) - title.length
  let nleft := d / 2
  let rem := d % 2
  (nleft, if rem = 0 then nleft else nleft + 1)

/-- The centered, bordered title line (`errors.py` lines 87–89). -/
def headerLine (title : PyStr) (width : Nat) : PyStr :=
  let p := titlePadding title width
  ofStr "|" ++ spaces p.1.toNat ++ title ++ spaces p.2.toNat ++ ofStr "|"

/-- The two minibar segments of the divider:
`minibar_length, rem = divmod(width - len(MIDDLE_MSG), 4)`, with one extra `-`
appended to the left minibar and one extra `*` prepended to the right minibar
when `rem >= 2`, and one extra `-` prepended to the right minibar when `rem`
is odd (`errors.py` lines 91–100). -/
def minibars (width : Nat) : PyStr × PyStr :=
  let d : Int := (width : Int) - MIDDLE_MSG.length
  let minibarLength := d / 4
  let rem := d % 4
  let leftMinibar := pyRepeat (ofStr "-*") minibarLength
  let rightMinibar := pyRepeat (ofStr "*-") minibarLength
  let leftMinibar := if 2 ≤ rem then leftMinibar ++ ofStr "-" else leftMinibar
  let rightMinibar := if 2 ≤ rem then ofStr "*" ++ rightMinibar else rightMinibar
  let rightMinibar := if rem % 2 ≠ 0 then ofStr "-" ++ rightMinibar else rightMinibar
  (leftMinibar, rightMinibar)

/-- The full `was the direct cause of` divider line (`errors.py` lines 102–104). -/
def middleHeader (width : Nat) : PyStr :=
  (minibars width).1 ++ ofStr " " ++ MIDDLE_MSG ++ ofStr " " ++ (minibars width).2

/-- `BugyiError._repr(width)` (`errors.py` lines 41–57):
`"{cname}::{module}::{function}::{line}{{\n{efill(msg, width, indent=2)}\n}}"`. -/
def bugyiRepr (cls module_name function_name : String) (lineNo : Nat)
    (emsg : String) (width : Nat) : PyStr :=
  cls.data ++ ofStr "::" ++ module_name.data ++ ofStr "::" ++
    function_name.data ++ ofStr "::" ++ (toString lineNo).data ++ ofStr "\x7b" ++
    '\n' :: efill emsg.data width 2 ++ '\n' :: ofStr "\x7d"

/-- `_tb_or_repr(e, width)` (`errors.py` lines 189–198): a `BugyiError` renders
through `_repr(width)`; any other exception contributes its traceback text or
`repr` (carried opaquely by the `foreign` constructor). -/
def tbOrRepr (e : Exc) (width : Nat) : PyStr :=
  match e with
  | .bugyi cls emsg module_name function_name lineNo _ =>
    bugyiRepr cls module_name function_name lineNo emsg width
  | .foreign _ text _ => text.data

/-! ## The `_ErrorReport` builder (`errors.py` lines 125–186) -/

/-- One `_ErrorReportLine`: the line text and the number of newline characters
accumulated after it. -/
structure RLine where
  line : PyStr
  newlines : Nat
  deriving DecidableEq, Repr

/-- The `if ... or i < len - 1` branch body of `_add_chunk`: append `"\n"` to
the last line's newlines, or start with a blank line when the report is empty. -/
def bumpLast : List RLine → List RLine
  | [] => [⟨[], 0⟩]
  | [r] => [⟨r.line, r.newlines + 1⟩]
  | r :: rs => r :: bumpLast rs

/-- The `_add_chunk` loop over the split pieces, for two or more pieces: every
piece except the last is followed by a newline bump; non-empty pieces are
appended as fresh lines. -/
def addPieces : List RLine → List PyStr → List RLine
  | rls, [] => rls
  | rls, [p] => if p = [] then rls else rls ++ [⟨p, 0⟩]
  | rls, p :: ps =>
    let rls := bumpLast rls
    let rls := if p = [] then rls else rls ++ [⟨p, 0⟩]
    addPieces rls ps

/-- `_ErrorReport._add_chunk` (`errors.py` lines 140–155): ignore empty chunks;
split on newlines; a chunk without a newline still bumps the trailing newline
count once. -/
def addChunk (rls : List RLine) (chunk : PyStr) : List RLine :=
  if chunk = [] then rls
  else
    match splitOnNl chunk with
    | [p] => let rls := bumpLast rls; if p = [] then rls else rls ++ [⟨p, 0⟩]
    | ps => addPieces rls ps

/-- A content line of the report body:
`"{V_CH} {line}{right_spaces} {V_CH}"` with
`right_spaces = " " * (width - len(line) - 2)` (`errors.py` lines 117–119). -/
def contentLine (width : Nat) (line : PyStr) : PyStr :=
  ofStr "| " ++ line ++ spaces (((width : Int) - line.length - 2).toNat) ++ ofStr " |"

/-- The sequence of chunks `BugyiError.report(width)` feeds to the
`_ErrorReport` (after the initial `"\n"`): the boxed title, then for each chain
member from oldest to newest a divider (except before the first) followed by
its wrapped content lines, then a closing dash line (`errors.py` lines 106–121). -/
def reportChunks (top : Exc) (width : Nat) : List PyStr :=
  let header := headerLine top.clsName.data width
  let dashes := List.replicate header.length '-'
  let w := width - 2
  [dashes ++ '\n' :: header ++ '\n' :: dashes ++ ['\n']]
    ++ (List.enum top.iter.reverse).flatMap (fun ie =>
        (if ie.1 ≠ 0 then
          [dashes ++ '\n' :: middleHeader width ++ '\n' :: dashes ++ ['\n']]
        else [])
          ++ (ewrap (tbOrRepr ie.2 w) w 0).map fun line =>
              contentLine width line ++ ['\n'])
    ++ [dashes]

/-- The `_ErrorReport` line state after `BugyiError.report(width)` has added
all its chunks (starting from the `_ErrorReport("\n")` constructor call). -/
def reportRLines (top : Exc) (width : Nat) : List RLine :=
  (reportChunks top width).foldl addChunk (addChunk [] ['\n'])

/-- `V_CH + rline.line[1:-1] + V_CH`: overwrite the first and last character
of a line with a border character (`errors.py` lines 163 and 175). -/
def closeLine (bc : Char) (l : PyStr) : PyStr :=
  bc :: (l.drop 1).dropLast ++ [bc]

/-- `_ErrorReport._close_borders` (`errors.py` lines 157–175), acting on the
sequence of line texts: close every non-blank line with the border character;
then scan forward from the start past blank lines and splice `+` corners into
the line found, and splice `+` corners into the very last line (the backward
scan `j = -1` fails its `0 <= j` guard immediately, so Python's negative
indexing picks the last line whether or not it is blank).  The two places the
source would raise `IndexError` — an empty report, or a forward scan that runs
past the end because every line is blank — return `none`. -/
def closeBordersLines (bc : Char) (ls0 : List PyStr) : Option (List PyStr) :=
  let ls := ls0.map fun l => if l = [] then l else closeLine bc l
  match ls.findIdx? (fun l => !l.isEmpty) with
  | none => none
  | some j =>
    let ls := ls.set j (closeLine '+' (ls.getD j []))
    match ls.getLast? with
    | none => none
    | some lastL => some (ls.dropLast ++ [closeLine '+' lastL])

/-- The line texts of the fully rendered report (after `_close_borders`). -/
def finalLines (top : Exc) (width : Nat) : Option (List PyStr) :=
  closeBordersLines '|' ((reportRLines top width).map RLine.line)

/-- `str(report)` = `_ErrorReport.__str__` (`errors.py` lines 132–134):
`_close_borders`, then concatenate every line text with its trailing
newlines.  `BugyiError.__str__` returns exactly this string. -/
def reportStr (top : Exc) (width : Nat) : Option PyStr :=
  let rls := reportRLines top width
  (closeBordersLines '|' (rls.map RLine.line)).map fun ls =>
    ((ls.zip (rls.map RLine.newlines)).map fun p =>
      p.1 ++ List.replicate p.2 '\n').flatten

/-! ### Theorems: C2 (chain attachment) -/

theorem chain_errors_iter_append :
    ∀ (e1 e2 : Exc),
      (chain_errors e1 (some e2)).iter.map Exc.info =
        e1.iter.map Exc.info ++ e2.iter.map Exc.info
  | .bugyi a b c d n none, e2 => by simp [chain_errors, Exc.iter, Exc.info]
  | .bugyi a b c d n (some k), e2 => by
    have ih := chain_errors_iter_append k e2
    simp [chain_errors, Exc.iter, Exc.info, ih]
  | .foreign cl t none, e2 => by simp [chain_errors, Exc.iter, Exc.info]
  | .foreign cl t (some k), e2 => by
    have ih := chain_errors_iter_append k e2
    simp [chain_errors, Exc.iter, Exc.info, ih]

/-- **C2.** `chain_errors(e1, e2)` attaches `e2` at the deepest point of `e1`'s
existing chain and returns `e1`: the resulting iteration order is `e1`'s chain
followed by `e2`'s chain.  In particular, attaching cause `C` to an error `A`
that already has cause `B` yields the chain `A → B → C`, leaving the
intermediate link `B` in place. -/
theorem C2_chain_errors_attaches_at_deepest :
    (∀ e1 e2 : Exc,
      (chain_errors e1 (some e2)).iter.map Exc.info =
        e1.iter.map Exc.info ++ e2.iter.map Exc.info) ∧
    (∀ (aMsg bMsg : String) (m f : String) (la lb : Nat) (cExc : Exc),
      chain_errors
        (Exc.bugyi "BugyiError" aMsg m f la
          (some (Exc.bugyi "BugyiError" bMsg m f lb none))) (some cExc) =
      Exc.bugyi "BugyiError" aMsg m f la
        (some (Exc.bugyi "BugyiError" bMsg m f lb (some cExc)))) := by
  constructor
  · exact chain_errors_iter_append
  · intro aMsg bMsg m f la lb cExc
    simp [chain_errors]

/-! ### Theorems: C4 (round-trip scenario) -/

/-- `ApplicationError("inner failure")` with origin metadata `m`/`f`/line 1. -/
def innerFailureExc : Exc :=
  mkBugyiError "BugyiError" "inner failure" "m" "f" 1 none

/-- `ApplicationError("outer failure", cause=inner)` with origin `m`/`f`/line 2. -/
def outerFailureExc : Exc :=
  mkBugyiError "BugyiError" "outer failure" "m" "f" 2 (some innerFailureExc)

/-- **C4.** For the chain `outer = ApplicationError("outer failure",
cause=ApplicationError("inner failure"))`: iterating yields `[outer, inner]`
(newest first); rendering at width 80 succeeds and reverses the order — the
output contains exactly one `was the direct cause of` divider line, exactly two
content blocks (one `BugyiError::m::f::…{` repr head apiece), and the block
containing `inner failure` is printed before the block containing
`outer failure`. -/
theorem C4_round_trip_scenario :
    outerFailureExc.iter = [outerFailureExc, innerFailureExc] ∧
    (finalLines outerFailureExc 80).isSome = true ∧
    ((finalLines outerFailureExc 80).getD []).countP
      (fun l => decide (MIDDLE_MSG <:+: l)) = 1 ∧
    ((finalLines outerFailureExc 80).getD []).countP
      (fun l => decide (ofStr "BugyiError::m::f::" <:+: l)) = 2 ∧
    ((finalLines outerFailureExc 80).getD []).findIdx
        (fun l => decide (ofStr "inner failure" <:+: l)) <
      ((finalLines outerFailureExc 80).getD []).findIdx
        (fun l => decide (ofStr "outer failure" <:+: l)) := by
  refine ⟨rfl, ?_, ?_, ?_, ?_⟩ <;> decide

/-! ### Theorems: C5 (title centering) -/

/-- A 15-character title. -/
def title15 : PyStr := ofStr "ABCDEFGHIJKLMNO"

/-- **C5 counterexample.** For width 80 and a 15-character title the padding
difference `80 - 15 = 65` is odd, so the split is left = 32, right = 33 — not
the symmetric 32/32 the claim asserts. -/
theorem C5_counterexample :
    title15.length = 15 ∧
    titlePadding title15 80 = (32, 33) ∧
    ¬ titlePadding title15 80 = (32, 32) := by decide

/-- **C5 (amended).** Title centering splits `width - len(title)` spaces
between the two sides: the split is exactly symmetric when the difference is
even and the right side gets the extra space when it is odd; in particular for
width 80 a 15-character title gets left padding 32 and right padding 33 (and a
16-character title would get the symmetric 32/32). -/
theorem C5_title_centering_amended (title : PyStr) (width : Nat)
    (h : title.length ≤ width) :
    (titlePadding title width).1.toNat + (titlePadding title width).2.toNat =
        width - title.length ∧
    ((width - title.length) % 2 = 0 →
      (titlePadding title width).1 = (titlePadding title width).2) ∧
    ((width - title.length) % 2 = 1 →
      (titlePadding title width).2 = (titlePadding title width).1 + 1) ∧
    (title.length = 15 → width = 80 →
      (titlePadding title width).1.toNat = 32 ∧
      (titlePadding title width).2.toNat = 33) ∧
    headerLine title width =
      ofStr "|" ++ spaces (titlePadding title width).1.toNat ++ title ++
        spaces (titlePadding title width).2.toNat ++ ofStr "|" := by
  have hd := Int.ediv_add_emod ((width : Int) - title.length) 2
  have hm := Int.emod_nonneg ((width : Int) - title.length) (by norm_num : (2:Int) ≠ 0)
  have hm2 := Int.emod_lt_of_pos ((width : Int) - title.length) (by norm_num : (0:Int) < 2)
  simp only [titlePadding]
  refine ⟨?_, ?_, ?_, ?_, rfl⟩ <;> split <;> omega

theorem C5_title_centering_amended_witness :
    title15.length ≤ 80 ∧
    (titlePadding title15 80).1.toNat = 32 ∧
    (titlePadding title15 80).2.toNat = 33 :=
  ⟨by decide,
    (C5_title_centering_amended title15 80 (by decide)).2.2.2.1 (by decide) rfl⟩

/-! ### Theorems: C6 (divider minibars) -/

theorem pyRepeat_length (s : PyStr) (n : Int) :
    (pyRepeat s n).length = n.toNat * s.length := by
  simp [pyRepeat, List.length_flatten, List.map_replicate, List.sum_replicate,
    smul_eq_mul]

/-- **C6 counterexample.** `MIDDLE_MSG = "was the direct cause of"` is 23
characters long, not 24, and at width 80 the divider line is 82 characters,
not exactly `width`. -/
theorem C6_counterexample :
    MIDDLE_MSG.length = 23 ∧ ¬ MIDDLE_MSG.length = 24 ∧
    (middleHeader 80).length = 82 ∧ ¬ (middleHeader 80).length = 80 := by
  decide

/-- **C6 (amended).** The divider is built from two minibar segments sized by
`divmod(width - len(MIDDLE_MSG), 4)` with `MIDDLE_MSG` being 23 characters
long; when the remainder is at least 2 one extra mark goes to the left
minibar's trailing character and one to the right minibar's leading character,
and when the remainder is odd one further extra mark goes to the right
minibar's leading character; the resulting divider line fills `width + 2`
exactly (matching every other report line).  For width 80 the counts are
`divmod(57, 4) = (14, 1)`: left minibar 28 characters, right minibar 29. -/
theorem C6_minibar_amended (width : Nat) (h : 23 ≤ width) :
    MIDDLE_MSG.length = 23 ∧
    (minibars width).1.length =
        2 * ((width - 23) / 4) + (if 2 ≤ (width - 23) % 4 then 1 else 0) ∧
    (minibars width).2.length =
        2 * ((width - 23) / 4) + (if 2 ≤ (width - 23) % 4 then 1 else 0) +
          (if (width - 23) % 4 % 2 = 1 then 1 else 0) ∧
    (middleHeader width).length = width + 2 ∧
    (minibars 80).1.length = 28 ∧ (minibars 80).2.length = 29 := by
  have hd := Int.ediv_add_emod ((width : Int) - 23) 4
  have hm := Int.emod_nonneg ((width : Int) - 23) (by norm_num : (4:Int) ≠ 0)
  have hm2 := Int.emod_lt_of_pos ((width : Int) - 23) (by norm_num : (0:Int) < 4)
  have hlen : MIDDLE_MSG.length = 23 := by decide
  have e2 : (ofStr "-*").length = 2 := by decide
  have e2' : (ofStr "*-").length = 2 := by decide
  have e1 : (ofStr " ").length = 1 := by decide
  have ed : (ofStr "-").length = 1 := by decide
  have es : (ofStr "*").length = 1 := by decide
  refine ⟨hlen, ?_, ?_, ?_, by decide, by decide⟩ <;>
    simp only [minibars, middleHeader, hlen, List.length_append, pyRepeat_length,
      e2, e2', e1, ed, es, apply_ite List.length, List.length_cons,
      List.length_nil, Nat.cast_ofNat] <;>
    split_ifs <;> omega

theorem C6_minibar_amended_witness :
    23 ≤ 80 ∧
    (MIDDLE_MSG.length = 23 ∧
      (minibars 80).1.length =
          2 * ((80 - 23) / 4) + (if 2 ≤ (80 - 23) % 4 then 1 else 0) ∧
      (minibars 80).2.length =
          2 * ((80 - 23) / 4) + (if 2 ≤ (80 - 23) % 4 then 1 else 0) +
            (if (80 - 23) % 4 % 2 = 1 then 1 else 0) ∧
      (middleHeader 80).length = 80 + 2 ∧
      (minibars 80).1.length = 28 ∧ (minibars 80).2.length = 29) :=
  ⟨by decide, C6_minibar_amended 80 (by decide)⟩

/-! ## Lemmas on splitting and wrapping -/

theorem splitOnNl_ne_nil (s : PyStr) : splitOnNl s ≠ [] := by
  cases s with
  | nil => simp [splitOnNl]
  | cons c rest =>
    simp only [splitOnNl]
    split
    · simp
    · split <;> simp

theorem splitOnSpace_ne_nil (s : PyStr) : splitOnSpace s ≠ [] := by
  cases s with
  | nil => simp [splitOnSpace]
  | cons c rest =>
    simp only [splitOnSpace]
    split
    · simp
    · split <;> simp

theorem splitOnNl_no_nl (s : PyStr) :
    ∀ p ∈ splitOnNl s, ∀ c ∈ p, c ≠ '\n' := by
  induction s with
  | nil => intro p hp c hc; simp [splitOnNl] at hp; subst hp; simp at hc
  | cons a rest ih =>
    intro p hp c hc
    simp only [splitOnNl] at hp
    split at hp
    · rcases List.mem_cons.1 hp with h | h
      · subst h; simp at hc
      · exact ih p h c hc
    · rename_i ha
      obtain ⟨l, ls, hls⟩ := List.exists_cons_of_ne_nil (splitOnNl_ne_nil rest)
      rw [hls] at hp
      rcases List.mem_cons.1 hp with h | h
      · subst h
        rcases List.mem_cons.1 hc with h' | h'
        · subst h'; exact ha
        · exact ih l (hls ▸ List.mem_cons_self l ls) c h'
      · exact ih p (hls ▸ List.mem_cons_of_mem l h) c hc

theorem splitOnNl_of_no_nl (s : PyStr) (h : '\n' ∉ s) : splitOnNl s = [s] := by
  induction s with
  | nil => rfl
  | cons a rest ih =>
    simp only [splitOnNl]
    have ha : ¬ a = '\n' := fun hh => h (hh ▸ List.mem_cons_self a rest)
    rw [if_neg ha, ih (fun hh => h (List.mem_cons_of_mem a hh))]

theorem splitOnNl_append_cons (xs ys : PyStr) (h : '\n' ∉ xs) :
    splitOnNl (xs ++ '\n' :: ys) = xs :: splitOnNl ys := by
  induction xs with
  | nil => simp [splitOnNl]
  | cons a rest ih =>
    have ha : ¬ a = '\n' := fun hh => h (hh ▸ List.mem_cons_self a rest)
    simp only [List.cons_append, splitOnNl, List.append_eq, if_neg ha,
      ih (fun hh => h (List.mem_cons_of_mem a hh))]

theorem splitOnSpace_subset (s : PyStr) :
    ∀ p ∈ splitOnSpace s, ∀ c ∈ p, c ∈ s := by
  induction s with
  | nil => intro p hp c hc; simp [splitOnSpace] at hp; subst hp; simp at hc
  | cons a rest ih =>
    intro p hp c hc
    simp only [splitOnSpace] at hp
    split at hp
    · rcases List.mem_cons.1 hp with h | h
      · subst h; simp at hc
      · exact List.mem_cons_of_mem a (ih p h c hc)
    · obtain ⟨l, ls, hls⟩ := List.exists_cons_of_ne_nil (splitOnSpace_ne_nil rest)
      rw [hls] at hp
      rcases List.mem_cons.1 hp with h | h
      · subst h
        rcases List.mem_cons.1 hc with h' | h'
        · subst h'; exact List.mem_cons_self c rest
        · exact List.mem_cons_of_mem a
            (ih l (hls ▸ List.mem_cons_self l ls) c h')
      · exact List.mem_cons_of_mem a (ih p (hls ▸ List.mem_cons_of_mem l h) c hc)

theorem chunksAux_length_le (fuel : Nat) :
    ∀ (n : Nat) (s : PyStr), 1 ≤ n → s.length ≤ fuel →
      ∀ c ∈ chunksAux fuel n s, c.length ≤ n := by
  induction fuel with
  | zero =>
    intro n s hn hs c hc
    simp only [chunksAux] at hc
    rcases List.mem_singleton.1 hc with rfl
    omega
  | succ fuel ih =>
    intro n s hn hs c hc
    simp only [chunksAux] at hc
    split at hc
    · rcases List.mem_singleton.1 hc with rfl; assumption
    · rename_i hlong
      rcases List.mem_cons.1 hc with h | h
      · subst h; simp [List.length_take]
      · exact ih n (s.drop n) hn (by simp [List.length_drop]; omega) c h

theorem chunksAux_subset (fuel : Nat) :
    ∀ (n : Nat) (s : PyStr), ∀ p ∈ chunksAux fuel n s, ∀ c ∈ p, c ∈ s := by
  induction fuel with
  | zero =>
    intro n s p hp c hc
    simp only [chunksAux] at hp
    rcases List.mem_singleton.1 hp with rfl; exact hc
  | succ fuel ih =>
    intro n s p hp c hc
    simp only [chunksAux] at hp
    split at hp
    · rcases List.mem_singleton.1 hp with rfl; exact hc
    · rcases List.mem_cons.1 hp with h | h
      · subst h; exact List.take_subset n s hc
      · exact List.drop_subset n s (ih n (s.drop n) p h c hc)

theorem chunksOf_length_le (n : Nat) (s : PyStr) :
    ∀ c ∈ chunksOf n s, c.length ≤ max 1 n :=
  chunksAux_length_le s.length (max 1 n) s (le_max_left 1 n) le_rfl

theorem chunksOf_subset (n : Nat) (s : PyStr) :
    ∀ p ∈ chunksOf n s, ∀ c ∈ p, c ∈ s :=
  chunksAux_subset s.length (max 1 n) s

theorem fillGreedy_length_le (width : Nat) (indent : PyStr) :
    ∀ (ws : List PyStr) (cur : PyStr), cur.length ≤ width →
      (∀ w ∈ ws, indent.length + w.length ≤ width) →
      ∀ l ∈ fillGreedy width indent cur ws, l.length ≤ width := by
  intro ws
  induction ws with
  | nil =>
    intro cur hcur _ l hl
    simp only [fillGreedy] at hl
    rcases List.mem_singleton.1 hl with rfl; exact hcur
  | cons w ws ih =>
    intro cur hcur hws l hl
    simp only [fillGreedy] at hl
    split at hl
    · exact ih _ (by simp; omega) (fun x hx => hws x (List.mem_cons_of_mem w hx)) l hl
    · rcases List.mem_cons.1 hl with h | h
      · subst h; exact hcur
      · exact ih _ (by simp; exact hws w (List.mem_cons_self w ws))
          (fun x hx => hws x (List.mem_cons_of_mem w hx)) l h

theorem fillGreedy_chars (width : Nat) (indent : PyStr) (P : Char → Prop)
    (hin : ∀ c ∈ indent, P c) (hsp : P ' ') :
    ∀ (ws : List PyStr) (cur : PyStr), (∀ c ∈ cur, P c) →
      (∀ w ∈ ws, ∀ c ∈ w, P c) →
      ∀ l ∈ fillGreedy width indent cur ws, ∀ c ∈ l, P c := by
  intro ws
  induction ws with
  | nil =>
    intro cur hcur _ l hl
    simp only [fillGreedy] at hl
    rcases List.mem_singleton.1 hl with rfl; exact hcur
  | cons w ws ih =>
    intro cur hcur hws l hl
    simp only [fillGreedy] at hl
    split at hl
    · refine ih _ ?_ (fun x hx => hws x (List.mem_cons_of_mem w hx)) l hl
      intro c hc
      rcases List.mem_append.1 hc with h | h
      · exact hcur c h
      · rcases List.mem_cons.1 h with h' | h'
        · subst h'; exact hsp
        · exact hws w (List.mem_cons_self w ws) c h'
    · rcases List.mem_cons.1 hl with h | h
      · subst h; exact hcur
      · refine ih _ ?_ (fun x hx => hws x (List.mem_cons_of_mem w hx)) l h
        intro c hc
        rcases List.mem_append.1 hc with h' | h'
        · exact hin c h'
        · exact hws w (List.mem_cons_self w ws) c h'

theorem wrap_length_le (msg : PyStr) (width : Nat) (indent : PyStr)
    (h : indent.length < width) :
    ∀ l ∈ wrap msg width indent, l.length ≤ width := by
  intro l hl
  simp only [wrap] at hl
  split at hl
  · simp at hl
  · rename_i w ws hws
    split at hl
    · simp at hl
    · rename_i p ps hps
      have hmax : max 1 (width - indent.length) = width - indent.length := by omega
      have hbound : ∀ q ∈ (w :: ws).flatMap (chunksOf (width - indent.length)),
          q.length ≤ width - indent.length := by
        intro q hq
        obtain ⟨x, _, hx⟩ := List.mem_flatMap.1 hq
        have := chunksOf_length_le (width - indent.length) x q hx
        omega
      refine fillGreedy_length_le width indent ps (indent ++ p) ?_ ?_ l hl
      · have := hbound p (hps ▸ List.mem_cons_self p ps)
        simp; omega
      · intro q hq
        have := hbound q (hps ▸ List.mem_cons_of_mem p hq)
        omega

theorem wrap_chars (msg : PyStr) (width : Nat) (indent : PyStr) (P : Char → Prop)
    (hmsg : ∀ c ∈ msg, P c) (hin : ∀ c ∈ indent, P c) (hsp : P ' ') :
    ∀ l ∈ wrap msg width indent, ∀ c ∈ l, P c := by
  intro l hl
  simp only [wrap] at hl
  split at hl
  · simp at hl
  · rename_i w ws hws
    split at hl
    · simp at hl
    · rename_i p ps hps
      have hwords : ∀ q ∈ (splitOnSpace msg).filter (· ≠ []), ∀ c ∈ q, P c := by
        intro q hq c hc
        exact hmsg c (splitOnSpace_subset msg q (List.mem_of_mem_filter hq) c hc)
      have hpieces : ∀ q ∈ (w :: ws).flatMap (chunksOf (width - indent.length)),
          ∀ c ∈ q, P c := by
        intro q hq c hc
        obtain ⟨x, hx1, hx2⟩ := List.mem_flatMap.1 hq
        exact hwords x (hws ▸ hx1) c (chunksOf_subset _ x q hx2 c hc)
      refine fillGreedy_chars width indent P hin hsp ps (indent ++ p) ?_ ?_ l hl
      · intro c hc
        rcases List.mem_append.1 hc with h | h
        · exact hin c h
        · exact hpieces p (hps ▸ List.mem_cons_self p ps) c h
      · intro q hq
        exact hpieces q (hps ▸ List.mem_cons_of_mem p hq)

theorem spaces_chars (n : Nat) : ∀ c ∈ spaces n, c = ' ' := by
  intro c hc; exact List.eq_of_mem_replicate hc

theorem ewrap_length_le (s : PyStr) (width indent : Nat)
    (h : ∀ msg ∈ splitOnNl s,
      ((spaces indent ++ msg).takeWhile (· = ' ')).length < width) :
    ∀ l ∈ ewrap s width indent, l.length ≤ width := by
  intro l hl
  simp only [ewrap] at hl
  obtain ⟨msg, hmsg, hl⟩ := List.mem_flatMap.1 hl
  split at hl
  · rcases List.mem_singleton.1 hl with rfl; simp
  · refine wrap_length_le _ width _ ?_ l hl
    have := h msg hmsg
    simpa [spaces] using this

theorem ewrap_no_nl (s : PyStr) (width indent : Nat) :
    ∀ l ∈ ewrap s width indent, ∀ c ∈ l, c ≠ '\n' := by
  intro l hl
  simp only [ewrap] at hl
  obtain ⟨msg, hmsg, hl⟩ := List.mem_flatMap.1 hl
  split at hl
  · rcases List.mem_singleton.1 hl with rfl; simp
  · refine wrap_chars _ width _ (· ≠ '\n') ?_ ?_ (by decide) l hl
    · intro c hc
      rcases List.mem_append.1 hc with h | h
      · have := spaces_chars indent c h; subst this; decide
      · exact splitOnNl_no_nl s msg hmsg c h
    · intro c hc
      have := spaces_chars _ c hc; subst this; decide

/-! ## Lemmas on the `_ErrorReport` builder -/

/-- The non-empty lines a chunk contributes to the report. -/
def pieceOf (c : PyStr) : List PyStr := (splitOnNl c).filter (· ≠ [])

theorem bumpLast_ne_nil (rls : List RLine) : bumpLast rls ≠ [] := by
  match rls with
  | [] => simp [bumpLast]
  | [r] => simp [bumpLast]
  | r :: r' :: rs =>
    have := bumpLast_ne_nil (r' :: rs)
    simp [bumpLast]

theorem bumpLast_map_line (rls : List RLine) (h : rls ≠ []) :
    (bumpLast rls).map RLine.line = rls.map RLine.line := by
  match rls with
  | [] => exact absurd rfl h
  | [r] => simp [bumpLast]
  | r :: r' :: rs =>
    have ih := bumpLast_map_line (r' :: rs) (by simp)
    simp only [bumpLast, List.map_cons] at ih ⊢
    rw [ih]

theorem addPieces_map_line (ps : List PyStr) :
    ∀ rls : List RLine, rls ≠ [] →
      (addPieces rls ps).map RLine.line =
        rls.map RLine.line ++ ps.filter (· ≠ []) := by
  match ps with
  | [] => intro rls _; simp [addPieces]
  | [p] =>
    intro rls _
    simp only [addPieces]
    split
    · rename_i hp; subst hp; simp
    · rename_i hp
      simp [List.filter, hp]
  | p :: p' :: ps' =>
    intro rls hne
    have ih := addPieces_map_line (p' :: ps')
    simp only [addPieces]
    split
    · rename_i hp
      subst hp
      rw [ih (bumpLast rls) (bumpLast_ne_nil rls), bumpLast_map_line rls hne]
      simp [List.filter]
    · rename_i hp
      rw [ih (bumpLast rls ++ [RLine.mk p 0]) (by simp), List.map_append,
        bumpLast_map_line rls hne]
      simp [List.filter_cons, hp]

theorem addChunk_map_line (rls : List RLine) (c : PyStr) (h : rls ≠ []) :
    (addChunk rls c).map RLine.line = rls.map RLine.line ++ pieceOf c := by
  by_cases hc : c = []
  · subst hc
    simp [addChunk, pieceOf, splitOnNl, List.filter]
  · rcases hs : splitOnNl c with _ | ⟨p, ps⟩
    · exact absurd hs (splitOnNl_ne_nil c)
    · rcases ps with _ | ⟨p', ps'⟩
      · simp only [addChunk, if_neg hc, hs, pieceOf]
        split
        · rename_i hp
          subst hp
          rw [bumpLast_map_line rls h]
          simp [List.filter]
        · rename_i hp
          rw [List.map_append, bumpLast_map_line rls h]
          simp [List.filter, hp]
      · simp only [addChunk, if_neg hc, hs, pieceOf]
        exact addPieces_map_line (p :: p' :: ps') rls h

theorem addChunk_ne_nil (rls : List RLine) (c : PyStr) (h : rls ≠ []) :
    addChunk rls c ≠ [] := by
  intro hmap
  have h2 := addChunk_map_line rls c h
  rw [hmap] at h2
  simp only [List.map_nil] at h2
  have h3 := List.append_eq_nil.1 h2.symm
  exact h (List.map_eq_nil_iff.1 h3.1)

theorem foldl_addChunk_map_line (chunks : List PyStr) :
    ∀ rls : List RLine, rls ≠ [] →
      (chunks.foldl addChunk rls).map RLine.line =
        rls.map RLine.line ++ chunks.flatMap pieceOf := by
  induction chunks with
  | nil => intro rls _; simp
  | cons c cs ih =>
    intro rls hne
    simp only [List.foldl_cons, List.flatMap_cons]
    rw [ih (addChunk rls c) (addChunk_ne_nil rls c hne),
      addChunk_map_line rls c hne, List.append_assoc]

/-! ## Lemmas on the report pieces -/

theorem pyRepeat_chars (s : PyStr) (n : Int) : ∀ c ∈ pyRepeat s n, c ∈ s := by
  intro c hc
  simp only [pyRepeat, List.mem_flatten] at hc
  obtain ⟨l, hl, hcl⟩ := hc
  rw [List.eq_of_mem_replicate hl] at hcl
  exact hcl

theorem headerLine_length (title : PyStr) (width : Nat)
    (h : title.length ≤ width) : (headerLine title width).length = width + 2 := by
  have hd := Int.ediv_add_emod ((width : Int) - title.length) 2
  have hm := Int.emod_nonneg ((width : Int) - title.length)
    (by norm_num : (2:Int) ≠ 0)
  have hm2 := Int.emod_lt_of_pos ((width : Int) - title.length)
    (by norm_num : (0:Int) < 2)
  have h1 : (ofStr "|").length = 1 := by decide
  simp only [headerLine, titlePadding, List.length_append, spaces,
    List.length_replicate, h1]
  split_ifs <;> omega

theorem headerLine_ne_nil (title : PyStr) (width : Nat) :
    headerLine title width ≠ [] := by
  intro h
  have hlen := congrArg List.length h
  have h1 : (ofStr "|").length = 1 := by decide
  simp only [headerLine, List.length_append, h1, List.length_nil] at hlen
  omega

theorem headerLine_no_nl (title : PyStr) (width : Nat) (ht : '\n' ∉ title) :
    '\n' ∉ headerLine title width := by
  intro hmem
  simp only [headerLine, List.mem_append] at hmem
  rcases hmem with (((h | h) | h) | h) | h
  · exact absurd h (by decide)
  · exact absurd (List.eq_of_mem_replicate h) (by decide)
  · exact ht h
  · exact absurd (List.eq_of_mem_replicate h) (by decide)
  · exact absurd h (by decide)

theorem mem_append_or (P : Char → Prop) {a b : PyStr}
    (ha : ∀ x ∈ a, P x) (hb : ∀ x ∈ b, P x) : ∀ x ∈ a ++ b, P x := by
  intro x hx
  rcases List.mem_append.1 hx with h | h
  exacts [ha x h, hb x h]

theorem minibars_chars (width : Nat) :
    (∀ c ∈ (minibars width).1, c = '-' ∨ c = '*') ∧
    (∀ c ∈ (minibars width).2, c = '-' ∨ c = '*') := by
  have hds : ∀ x ∈ ofStr "-*", x = '-' ∨ x = '*' := by decide
  have hsd : ∀ x ∈ ofStr "*-", x = '-' ∨ x = '*' := by decide
  have hd1 : ∀ x ∈ ofStr "-", x = '-' ∨ x = '*' := by decide
  have hs1 : ∀ x ∈ ofStr "*", x = '-' ∨ x = '*' := by decide
  have hpl : ∀ x ∈ pyRepeat (ofStr "-*")
      (((width : Int) - MIDDLE_MSG.length) / 4), x = '-' ∨ x = '*' :=
    fun x hx => hds x (pyRepeat_chars _ _ x hx)
  have hpr : ∀ x ∈ pyRepeat (ofStr "*-")
      (((width : Int) - MIDDLE_MSG.length) / 4), x = '-' ∨ x = '*' :=
    fun x hx => hsd x (pyRepeat_chars _ _ x hx)
  constructor <;>
  · simp only [minibars]
    split_ifs <;>
      first
      | exact hpl
      | exact hpr
      | exact mem_append_or _ hpl hd1
      | exact mem_append_or _ hs1 hpr
      | exact mem_append_or _ hd1 hpr
      | exact mem_append_or _ hd1 (mem_append_or _ hs1 hpr)

theorem middleHeader_no_nl (width : Nat) : '\n' ∉ middleHeader width := by
  intro hmem
  simp only [middleHeader, List.mem_append] at hmem
  rcases hmem with (((h | h) | h) | h) | h
  · rcases (minibars_chars width).1 _ h with h' | h' <;> exact absurd h' (by decide)
  · exact absurd h (by decide)
  · exact absurd h (by decide)
  · exact absurd h (by decide)
  · rcases (minibars_chars width).2 _ h with h' | h' <;> exact absurd h' (by decide)

theorem middleHeader_ne_nil (width : Nat) : middleHeader width ≠ [] := by
  intro h
  simp only [middleHeader] at h
  have h1 := (List.append_eq_nil.1 h).1
  have h2 := (List.append_eq_nil.1 h1).2
  exact absurd h2 (by decide)

theorem middleHeader_length (width : Nat) (h : 23 ≤ width) :
    (middleHeader width).length = width + 2 := by
  have hd := Int.ediv_add_emod ((width : Int) - 23) 4
  have hm := Int.emod_nonneg ((width : Int) - 23) (by norm_num : (4:Int) ≠ 0)
  have hm2 := Int.emod_lt_of_pos ((width : Int) - 23) (by norm_num : (0:Int) < 4)
  have hlen : MIDDLE_MSG.length = 23 := by decide
  have e2 : (ofStr "-*").length = 2 := by decide
  have e2' : (ofStr "*-").length = 2 := by decide
  have e1 : (ofStr " ").length = 1 := by decide
  have ed : (ofStr "-").length = 1 := by decide
  have es : (ofStr "*").length = 1 := by decide
  simp only [minibars, middleHeader, hlen, List.length_append, pyRepeat_length,
    e2, e2', e1, ed, es, apply_ite List.length, List.length_cons,
    List.length_nil, Nat.cast_ofNat]
  split_ifs <;> omega

theorem contentLine_length (width : Nat) (l : PyStr) (h2 : 2 ≤ width)
    (h : l.length ≤ width - 2) : (contentLine width l).length = width + 2 := by
  have ha : (ofStr "| ").length = 2 := by decide
  have hb : (ofStr " |").length = 2 := by decide
  simp only [contentLine, List.length_append, spaces, List.length_replicate,
    ha, hb]
  omega

theorem contentLine_ne_nil (width : Nat) (l : PyStr) :
    contentLine width l ≠ [] := by
  intro h
  have hlen := congrArg List.length h
  have ha : (ofStr "| ").length = 2 := by decide
  have hb : (ofStr " |").length = 2 := by decide
  simp only [contentLine, List.length_append, ha, hb, List.length_nil] at hlen
  omega

theorem contentLine_no_nl (width : Nat) (l : PyStr) (hl : '\n' ∉ l) :
    '\n' ∉ contentLine width l := by
  intro hmem
  simp only [contentLine, List.mem_append] at hmem
  rcases hmem with ((h | h) | h) | h
  · exact absurd h (by decide)
  · exact hl h
  · exact absurd (List.eq_of_mem_replicate h) (by decide)
  · exact absurd h (by decide)

/-! ## The report's line structure -/

/-- The non-blank lines of the report, in order, before border closing:
dash/title/dash box head, then per chain member (oldest first) an optional
divider triple followed by its wrapped content lines, then a closing dash
line. -/
def reportPieces (top : Exc) (width : Nat) : List PyStr :=
  let header := headerLine top.clsName.data width
  let dashes := List.replicate header.length '-'
  let w := width - 2
  [dashes, header, dashes]
    ++ (List.enum top.iter.reverse).flatMap (fun ie =>
        (if ie.1 ≠ 0 then [dashes, middleHeader width, dashes] else [])
          ++ (ewrap (tbOrRepr ie.2 w) w 0).map fun line => contentLine width line)
    ++ [dashes]

theorem flatMap_congr_mem {α β : Type} (xs : List α) (f g : α → List β)
    (h : ∀ x ∈ xs, f x = g x) : xs.flatMap f = xs.flatMap g := by
  induction xs with
  | nil => rfl
  | cons x xs ih =>
    simp only [List.flatMap_cons]
    rw [h x (List.mem_cons_self x xs),
      ih (fun y hy => h y (List.mem_cons_of_mem x hy))]

theorem pieceOf_plain (a : PyStr) (ha : '\n' ∉ a) (hna : a ≠ []) :
    pieceOf a = [a] := by
  simp [pieceOf, splitOnNl_of_no_nl a ha, List.filter, hna]

theorem pieceOf_single_nl (a : PyStr) (ha : '\n' ∉ a) (hna : a ≠ []) :
    pieceOf (a ++ ['\n']) = [a] := by
  have e : a ++ ['\n'] = a ++ '\n' :: [] := rfl
  rw [pieceOf, e, splitOnNl_append_cons a [] ha]
  simp [splitOnNl, List.filter, hna]

theorem pieceOf_triple (a b c : PyStr) (ha : '\n' ∉ a) (hb : '\n' ∉ b)
    (hc : '\n' ∉ c) (hna : a ≠ []) (hnb : b ≠ []) (hnc : c ≠ []) :
    pieceOf (a ++ '\n' :: b ++ '\n' :: c ++ ['\n']) = [a, b, c] := by
  have e : a ++ '\n' :: b ++ '\n' :: c ++ ['\n'] =
      a ++ '\n' :: (b ++ '\n' :: (c ++ '\n' :: [])) := by
    simp [List.append_assoc, List.cons_append]
  rw [pieceOf, e, splitOnNl_append_cons a _ ha, splitOnNl_append_cons b _ hb,
    splitOnNl_append_cons c _ hc]
  simp [splitOnNl, List.filter, hna, hnb, hnc]

theorem flatMap_pieceOf_content (width : Nat) (lines : List PyStr)
    (h : ∀ l ∈ lines, '\n' ∉ l) :
    (lines.map (fun l => contentLine width l ++ ['\n'])).flatMap pieceOf =
      lines.map (contentLine width) := by
  induction lines with
  | nil => rfl
  | cons l ls ih =>
    simp only [List.map_cons, List.flatMap_cons]
    rw [pieceOf_single_nl _ (contentLine_no_nl width l (h l (List.mem_cons_self l ls)))
        (contentLine_ne_nil width l),
      ih (fun y hy => h y (List.mem_cons_of_mem l hy))]
    rfl

/-- Well-formedness of a chain for rendering at a given width: the width fits
the title and the divider (spec section 4.3/9: smaller widths are undefined),
the class name used as the title contains no newline, and every logical line of
every chain member's rendered text leaves room after its leading spaces within
the inner width `width - 2`. -/
def wellFormed (top : Exc) (width : Nat) : Prop :=
  '\n' ∉ top.clsName.data ∧
  top.clsName.data.length ≤ width ∧
  23 ≤ width ∧
  ∀ e ∈ top.iter, ∀ l ∈ splitOnNl (tbOrRepr e (width - 2)),
    (l.takeWhile (· = ' ')).length < width - 2

theorem reportRLines_map_line (top : Exc) (width : Nat)
    (ht : '\n' ∉ top.clsName.data) :
    (reportRLines top width).map RLine.line = [] :: reportPieces top width := by
  have hinit_ne : addChunk ([] : List RLine) ['\n'] ≠ [] := by decide
  have hinit : (addChunk ([] : List RLine) ['\n']).map RLine.line = [[]] := by
    decide
  have hdash_nl :
      '\n' ∉ (List.replicate (headerLine top.clsName.data width).length '-' : PyStr) := by
    intro hm; exact absurd (List.eq_of_mem_replicate hm) (by decide)
  have hdash_ne :
      (List.replicate (headerLine top.clsName.data width).length '-' : PyStr) ≠ [] := by
    intro hm
    have h1 := headerLine_ne_nil top.clsName.data width
    have h2 := congrArg List.length hm
    simp only [List.length_replicate, List.length_nil] at h2
    exact h1 (List.eq_nil_of_length_eq_zero h2)
  have hhead_nl := headerLine_no_nl top.clsName.data width ht
  have hhead_ne := headerLine_ne_nil top.clsName.data width
  rw [reportRLines, foldl_addChunk_map_line _ _ hinit_ne, hinit]
  have hmid : ∀ ie ∈ List.enum top.iter.reverse,
      ((if ie.1 ≠ 0 then
          [(List.replicate (headerLine top.clsName.data width).length '-' : PyStr) ++
            '\n' :: middleHeader width ++
            '\n' :: (List.replicate (headerLine top.clsName.data width).length '-' : PyStr) ++ ['\n']]
        else []).flatMap pieceOf ++
        ((ewrap (tbOrRepr ie.2 (width - 2)) (width - 2) 0).map
          (fun line => contentLine width line ++ ['\n'])).flatMap pieceOf) =
      (if ie.1 ≠ 0 then
          [(List.replicate (headerLine top.clsName.data width).length '-' : PyStr),
            middleHeader width,
            (List.replicate (headerLine top.clsName.data width).length '-' : PyStr)]
        else []) ++
        (ewrap (tbOrRepr ie.2 (width - 2)) (width - 2) 0).map
          (contentLine width) := by
    intro ie _
    congr 1
    · split
      · rw [List.flatMap_cons, List.flatMap_nil,
          pieceOf_triple _ _ _ hdash_nl (middleHeader_no_nl width) hdash_nl
            hdash_ne (middleHeader_ne_nil width) hdash_ne]
        simp
      · rfl
    · refine flatMap_pieceOf_content width _ (fun l hl => ?_)
      intro hm
      exact ewrap_no_nl _ _ _ l hl '\n' hm rfl
  have hchunks : (reportChunks top width).flatMap pieceOf =
      reportPieces top width := by
    simp only [reportChunks, reportPieces, List.flatMap_append,
      List.flatMap_cons, List.flatMap_nil, List.flatMap_assoc,
      List.append_nil]
    rw [pieceOf_triple _ _ _ hdash_nl hhead_nl hdash_nl hdash_ne hhead_ne
        hdash_ne,
      pieceOf_plain _ hdash_nl hdash_ne]
    rw [flatMap_congr_mem _ _ _ hmid]
  rw [hchunks]
  rfl

/-! ## Lemmas on `_close_borders` -/

theorem closeLine_ne_nil (bc : Char) (l : PyStr) : closeLine bc l ≠ [] := by
  simp [closeLine]

theorem closeLine_isEmpty (bc : Char) (l : PyStr) :
    (closeLine bc l).isEmpty = false := rfl

theorem closeLine_length (bc : Char) (l : PyStr) (h : 2 ≤ l.length) :
    (closeLine bc l).length = l.length := by
  simp only [closeLine, List.cons_append, List.length_cons, List.length_append,
    List.length_dropLast, List.length_drop, List.length_cons, List.length_nil]
  omega

theorem closeLine_head (bc : Char) (l : PyStr) :
    (closeLine bc l).head? = some bc := rfl

theorem closeLine_getLast (bc : Char) (l : PyStr) :
    (closeLine bc l).getLast? = some bc := by
  simp only [closeLine]
  exact List.getLast?_concat _

theorem reportPieces_length (top : Exc) (width : Nat) (hw : wellFormed top width) :
    ∀ p ∈ reportPieces top width, p.length = width + 2 := by
  obtain ⟨ht, hlen, h23, hfit⟩ := hw
  have hhl := headerLine_length top.clsName.data width hlen
  have hdl : (List.replicate (headerLine top.clsName.data width).length '-' : PyStr).length
      = width + 2 := by
    simp [List.length_replicate, hhl]
  intro p hp
  simp only [reportPieces, List.mem_append, List.mem_cons, List.mem_flatMap,
    List.not_mem_nil, or_false, List.mem_singleton] at hp
  rcases hp with (hp | hp) | hp
  · rcases hp with hp | hp | hp <;> subst hp
    exacts [hdl, hhl, hdl]
  · obtain ⟨ie, hie, hp⟩ := hp
    have he : ie.2 ∈ top.iter := by
      have h1 := List.enum_map_snd top.iter.reverse
      have h2 : ie.2 ∈ top.iter.reverse :=
        h1 ▸ List.mem_map_of_mem Prod.snd hie
      exact List.mem_reverse.1 h2
    rcases hp with hp | hp
    · split at hp
      · simp only [List.mem_cons, List.not_mem_nil, or_false] at hp
        rcases hp with hp | hp | hp
        · exact hp ▸ hdl
        · exact hp ▸ middleHeader_length width h23
        · exact hp ▸ hdl
      · simp at hp
    · obtain ⟨l, hl, hp⟩ := List.mem_map.1 hp
      subst hp
      refine contentLine_length width l (by omega) ?_
      refine ewrap_length_le _ _ _ (fun msg hmsg => ?_) l hl
      simpa [spaces] using hfit ie.2 he msg hmsg
  · exact hp ▸ hdl

theorem closeBordersLines_eq (bc : Char) (p q : PyStr) (mid : List PyStr)
    (hp : p ≠ []) :
    closeBordersLines bc ([] :: p :: (mid ++ [q])) =
      some ([] :: closeLine '+' (closeLine bc p) ::
        ((mid.map fun l => if l = [] then l else closeLine bc l) ++
         [closeLine '+' (if q = [] then q else closeLine bc q)])) := by
  have e1 : ([] :: p :: (mid ++ [q])).map
      (fun l => if l = [] then l else closeLine bc l) =
      [] :: closeLine bc p ::
        ((mid.map fun l => if l = [] then l else closeLine bc l) ++
         [if q = [] then q else closeLine bc q]) := by
    simp [List.map_append, hp]
  have e2 : List.findIdx? (fun l => !l.isEmpty)
      ([] :: closeLine bc p ::
        ((mid.map fun l => if l = [] then l else closeLine bc l) ++
         [if q = [] then q else closeLine bc q])) = some 1 := by
    rw [List.findIdx?_cons]
    simp [closeLine_isEmpty]
  simp only [closeBordersLines]
  rw [e1, e2]
  change (match (([] : PyStr) :: closeLine '+' (closeLine bc p) ::
      ((mid.map fun l => if l = [] then l else closeLine bc l) ++
       [if q = [] then q else closeLine bc q])).getLast? with
    | none => none
    | some lastL =>
      some ((([] : PyStr) :: closeLine '+' (closeLine bc p) ::
        ((mid.map fun l => if l = [] then l else closeLine bc l) ++
         [if q = [] then q else closeLine bc q])).dropLast ++
        [closeLine '+' lastL])) = _
  have hconcat : (([] : PyStr) :: closeLine '+' (closeLine bc p) ::
      ((mid.map fun l => if l = [] then l else closeLine bc l) ++
       [if q = [] then q else closeLine bc q])) =
      (([] : PyStr) :: closeLine '+' (closeLine bc p) ::
        (mid.map fun l => if l = [] then l else closeLine bc l)) ++
        [if q = [] then q else closeLine bc q] := by simp
  rw [hconcat, List.getLast?_concat, List.dropLast_concat]
  simp

/-- For a well-formed chain, `_close_borders` succeeds and the final line list
is: one blank line, the corner-closed top dash line, the border-closed interior
pieces, and the corner-closed bottom dash line. -/
theorem finalLines_structure (top : Exc) (width : Nat) (hw : wellFormed top width) :
    ∃ mid : List PyStr,
      (∀ m ∈ mid, m ∈ reportPieces top width) ∧
      finalLines top width =
        some ([] :: closeLine '+'
            (closeLine '|'
              (List.replicate (headerLine top.clsName.data width).length '-')) ::
          ((mid.map fun l => if l = [] then l else closeLine '|' l) ++
           [closeLine '+'
            (closeLine '|'
              (List.replicate (headerLine top.clsName.data width).length '-'))])) := by
  have hdne :
      (List.replicate (headerLine top.clsName.data width).length '-' : PyStr) ≠ [] := by
    intro hm
    have h1 := headerLine_ne_nil top.clsName.data width
    have h2 := congrArg List.length hm
    simp only [List.length_replicate, List.length_nil] at h2
    exact h1 (List.eq_nil_of_length_eq_zero h2)
  refine ⟨[headerLine top.clsName.data width,
      List.replicate (headerLine top.clsName.data width).length '-'] ++
      (List.enum top.iter.reverse).flatMap (fun ie =>
        (if ie.1 ≠ 0 then
          [List.replicate (headerLine top.clsName.data width).length '-',
            middleHeader width,
            List.replicate (headerLine top.clsName.data width).length '-']
        else [])
          ++ (ewrap (tbOrRepr ie.2 (width - 2)) (width - 2) 0).map fun line =>
              contentLine width line), ?_, ?_⟩
  · intro m hm
    simp only [reportPieces, List.mem_append, List.mem_cons]
    rcases List.mem_append.1 hm with h | h
    · rcases List.mem_cons.1 h with h | h
      · exact Or.inl (Or.inl (Or.inr (Or.inl h)))
      · rcases List.mem_singleton.1 h with rfl
        exact Or.inl (Or.inl (Or.inl rfl))
    · exact Or.inl (Or.inr h)
  · have hshape : reportPieces top width =
        (List.replicate (headerLine top.clsName.data width).length '-' : PyStr) ::
          (([headerLine top.clsName.data width,
            List.replicate (headerLine top.clsName.data width).length '-'] ++
            (List.enum top.iter.reverse).flatMap (fun ie =>
              (if ie.1 ≠ 0 then
                [List.replicate (headerLine top.clsName.data width).length '-',
                  middleHeader width,
                  List.replicate (headerLine top.clsName.data width).length '-']
              else [])
                ++ (ewrap (tbOrRepr ie.2 (width - 2)) (width - 2) 0).map fun line =>
                    contentLine width line)) ++
           [List.replicate (headerLine top.clsName.data width).length '-']) := by
      simp [reportPieces]
    have hfin : finalLines top width =
        closeBordersLines '|' ((reportRLines top width).map RLine.line) := rfl
    rw [hfin, reportRLines_map_line top width hw.1, hshape,
      closeBordersLines_eq '|' _ _ _ hdne, if_neg hdne]

/-- A concrete well-formed one-error chain used as a rendering example. -/
def wfExample : Exc := mkBugyiError "BugyiError" "demo failure" "mod" "fn" 3 none

/-- **C1 counterexample.** Rendering the concrete chain `wfExample` at width
80: the dash line below the leading blank line is 82 characters long, no line
of the report is 80 characters long, and the report does have lines — so
"every line is exactly `width` characters including both borders" is false at
width 80. -/
theorem C1_counterexample :
    (((finalLines wfExample 80).getD []).getD 1 []).length = 82 ∧
    ((finalLines wfExample 80).getD []).countP
      (fun l => decide (l.length = 80)) = 0 ∧
    2 ≤ ((finalLines wfExample 80).getD []).length := by decide

/-- **C1 (amended).** For every well-formed error chain and width, the string
produced by `BugyiError.report(width)` starts with a single blank line, and
every other (non-blank) line of it — title box, dividers and content lines
alike — is exactly `width + 2` characters long including both border
characters (the source's `width` counts the interior, borders excluded); in
particular this holds at width 40, 80 and 120. -/
theorem C1_report_line_width_amended (top : Exc) (width : Nat)
    (hw : wellFormed top width) :
    ∃ ls, finalLines top width = some ls ∧ ls.head? = some [] ∧
      ∀ l ∈ ls, l ≠ [] → l.length = width + 2 := by
  obtain ⟨mid, hmid, heq⟩ := finalLines_structure top width hw
  have hdlen :
      (List.replicate (headerLine top.clsName.data width).length '-' : PyStr).length
        = width + 2 := by
    simp [List.length_replicate, headerLine_length top.clsName.data width hw.2.1]
  have hclose : (closeLine '+'
      (closeLine '|'
        (List.replicate (headerLine top.clsName.data width).length '-'))).length
      = width + 2 := by
    rw [closeLine_length _ _ (by rw [closeLine_length _ _ (by omega)]; omega),
      closeLine_length _ _ (by omega), hdlen]
  refine ⟨_, heq, rfl, ?_⟩
  intro l hl hlne
  rcases List.mem_cons.1 hl with rfl | hl
  · exact absurd rfl hlne
  rcases List.mem_cons.1 hl with rfl | hl
  · exact hclose
  rcases List.mem_append.1 hl with hl | hl
  · obtain ⟨m, hm, rfl⟩ := List.mem_map.1 hl
    have hmlen := reportPieces_length top width hw m (hmid m hm)
    have hmne : m ≠ [] := by
      intro h; rw [h] at hmlen; simp at hmlen
    rw [if_neg hmne, closeLine_length _ _ (by omega)]
    exact hmlen
  · rcases List.mem_singleton.1 hl with rfl
    exact hclose

instance wellFormedDecidable (top : Exc) (width : Nat) :
    Decidable (wellFormed top width) := by
  unfold wellFormed
  exact inferInstance

theorem C1_report_line_width_amended_witness :
    wellFormed wfExample 80 ∧
    ∃ ls, finalLines wfExample 80 = some ls ∧ ls.head? = some [] ∧
      ∀ l ∈ ls, l ≠ [] → l.length = 80 + 2 :=
  ⟨by decide, C1_report_line_width_amended wfExample 80 (by decide)⟩

/-- **C7.** For every well-formed error chain (class-name title fitting in the
width, width at least the divider's 23-character message, sane message
indentation), `BugyiError.report(width)` followed by `str()` — i.e.
`BugyiError.__str__` — produces the full formatted multi-box diagnostic
string: the embedded rendering pipeline, whose only fallible step is
`_close_borders`, returns `some`. -/
theorem C7_report_never_raises (top : Exc) (width : Nat)
    (hw : wellFormed top width) :
    ∃ s, reportStr top width = some s := by
  obtain ⟨mid, _, heq⟩ := finalLines_structure top width hw
  have heq' : closeBordersLines '|' ((reportRLines top width).map RLine.line) =
      some ([] :: closeLine '+'
          (closeLine '|'
            (List.replicate (headerLine top.clsName.data width).length '-')) ::
        ((mid.map fun l => if l = [] then l else closeLine '|' l) ++
         [closeLine '+'
          (closeLine '|'
            (List.replicate (headerLine top.clsName.data width).length '-'))])) :=
    heq
  simp only [reportStr]
  rw [heq']
  exact ⟨_, rfl⟩

theorem C7_report_never_raises_witness :
    wellFormed wfExample 80 ∧ ∃ s, reportStr wfExample 80 = some s :=
  ⟨by decide, C7_report_never_raises wfExample 80 (by decide)⟩

/-- **C10.** In the final rendered report of a well-formed chain, every
non-blank line has had its first and last character overwritten with the
border character — interior dash lines and divider lines included — so every
non-blank line both starts and ends with `|` or `+`; the corner pass then hits
the first non-blank line (the scan from the top skips the single leading blank
line, so the non-blank line found is at index 1) and the last line (which is
the non-blank closing dash line, so scanning inward past blank lines from the
end finds the same line), overwriting their first and last characters with
`+`. -/
theorem C10_close_borders_overwrites (top : Exc) (width : Nat)
    (hw : wellFormed top width) :
    ∃ ls, finalLines top width = some ls ∧
      ls.head? = some [] ∧
      (∀ l ∈ ls, l ≠ [] →
        (l.head? = some '|' ∨ l.head? = some '+') ∧
        (l.getLast? = some '|' ∨ l.getLast? = some '+')) ∧
      ls.findIdx? (fun l => !l.isEmpty) = some 1 ∧
      (ls.getD 1 []).head? = some '+' ∧ (ls.getD 1 []).getLast? = some '+' ∧
      (∃ ll, ls.getLast? = some ll ∧ ll ≠ [] ∧
        ll.head? = some '+' ∧ ll.getLast? = some '+') := by
  obtain ⟨mid, _, heq⟩ := finalLines_structure top width hw
  refine ⟨_, heq, rfl, ?_, ?_, closeLine_head _ _, closeLine_getLast _ _, ?_⟩
  · intro l hl hlne
    rcases List.mem_cons.1 hl with rfl | hl
    · exact absurd rfl hlne
    rcases List.mem_cons.1 hl with rfl | hl
    · exact ⟨Or.inr (closeLine_head _ _), Or.inr (closeLine_getLast _ _)⟩
    rcases List.mem_append.1 hl with hl | hl
    · obtain ⟨m, hm, rfl⟩ := List.mem_map.1 hl
      have hmne : m ≠ [] := by
        intro h
        rw [h] at hlne
        simp at hlne
      rw [if_neg hmne]
      exact ⟨Or.inl (closeLine_head _ _), Or.inl (closeLine_getLast _ _)⟩
    · rcases List.mem_singleton.1 hl with rfl
      exact ⟨Or.inr (closeLine_head _ _), Or.inr (closeLine_getLast _ _)⟩
  · rw [List.findIdx?_cons]
    simp [closeLine_isEmpty]
  · refine ⟨closeLine '+'
      (closeLine '|'
        (List.replicate (headerLine top.clsName.data width).length '-')), ?_,
      closeLine_ne_nil _ _, closeLine_head _ _, closeLine_getLast _ _⟩
    have hconcat : (([] : PyStr) :: closeLine '+'
        (closeLine '|'
          (List.replicate (headerLine top.clsName.data width).length '-')) ::
        ((mid.map fun l => if l = [] then l else closeLine '|' l) ++
         [closeLine '+'
          (closeLine '|'
            (List.replicate (headerLine top.clsName.data width).length '-'))])) =
        (([] : PyStr) :: closeLine '+'
          (closeLine '|'
            (List.replicate (headerLine top.clsName.data width).length '-')) ::
          (mid.map fun l => if l = [] then l else closeLine '|' l)) ++
        [closeLine '+'
          (closeLine '|'
            (List.replicate (headerLine top.clsName.data width).length '-'))] := by
      simp
    rw [hconcat, List.getLast?_concat]

theorem C10_close_borders_overwrites_witness :
    wellFormed wfExample 80 ∧
    ∃ ls, finalLines wfExample 80 = some ls ∧
      ls.head? = some [] ∧
      (∀ l ∈ ls, l ≠ [] →
        (l.head? = some '|' ∨ l.head? = some '+') ∧
        (l.getLast? = some '|' ∨ l.getLast? = some '+')) ∧
      ls.findIdx? (fun l => !l.isEmpty) = some 1 ∧
      (ls.getD 1 []).head? = some '+' ∧ (ls.getD 1 []).getLast? = some '+' ∧
      (∃ ll, ls.getLast? = some ll ∧ ll ≠ [] ∧
        ll.head? = some '+' ∧ ll.getLast? = some '+') :=
  ⟨by decide, C10_close_borders_overwrites wfExample 80 (by decide)⟩
